import Mathlib

/-!
Verification of the metadynamics bias-accumulation / free-energy
reconstruction core described by the design specification of this
repository.  The repository itself contains only notebook callers of an
external simulation engine, so the core operations (hill deposition,
point-wise bias queries, free-energy surface reconstruction, projection,
configuration sampling and collective-variable lookup) are modelled here
directly from the specification text and settled against it.
-/

namespace MetaDyn

/-- Modelled from the spec: a HillRecord, the timestamped deposit
`(cv_values, height, sigma)` kept in the append-only hill log.  The
implementation is absent from the repository (it lives in the external
engine), so the record is taken verbatim from the data model section.
`n` is the number of collective variables. -/
structure Hill (n : ℕ) where
  time : ℝ
  center : Fin n → ℝ
  height : ℝ
  sigma : Fin n → ℝ

/-- Modelled from the spec: the Gaussian exponent
`Σ_d (p[d]-c[d])^2 / (2*sigma[d]^2)` of a hill with center `c` and widths
`σ`, evaluated at the query point `p`. -/
noncomputable def hillEnergy {n : ℕ} (p c σ : Fin n → ℝ) : ℝ :=
  ∑ d : Fin n, (p d - c d) ^ 2 / (2 * σ d ^ 2)

/-- Modelled from the spec: the contribution of one deposited hill to the
bias at a query point, `height * exp(-hillEnergy)`. -/
noncomputable def gaussAt {n : ℕ} (h : Hill n) (p : Fin n → ℝ) : ℝ :=
  h.height * Real.exp (-hillEnergy p h.center h.sigma)

/-- Modelled from the spec: `biasAt(cv_point)` as the running accumulation
over the hill log, the bias being the running sum of all prior hills
evaluated at the query point. -/
noncomputable def biasAt {n : ℕ} : List (Hill n) → (Fin n → ℝ) → ℝ
  | [], _ => 0
  | h :: rest, p => gaussAt h p + biasAt rest p

/-- Modelled from the spec: the well-tempered deposit height
`height_0 * exp(-bias_so_far(cv_values) / (k_B*T*(biasFactor-1)))`,
evaluated under a single consistent snapshot `hills` of the log. -/
noncomputable def wtHeight {n : ℕ} (h0 kT γ : ℝ) (hills : List (Hill n))
    (c : Fin n → ℝ) : ℝ :=
  h0 * Real.exp (-biasAt hills c / (kT * (γ - 1)))

/-- Modelled from the spec: the hill log obtained by `k` successive
well-tempered deposits at the same CV point `c` with widths `σ`, each
deposit computing its height from the bias accumulated so far. -/
noncomputable def wtHistory {n : ℕ} (h0 kT γ : ℝ) (c σ : Fin n → ℝ) :
    ℕ → List (Hill n)
  | 0 => []
  | k + 1 =>
      wtHistory h0 kT γ c σ k ++
        [⟨(k : ℝ), c, wtHeight h0 kT γ (wtHistory h0 kT γ c σ k) c, σ⟩]

/-- Modelled from the spec: the height of the hill deposited by the
`(k+1)`-st well-tempered deposit at `c`, i.e. the height computed under
the bias accumulated from the first `k` deposits. -/
noncomputable def wtDepositHeight {n : ℕ} (h0 kT γ : ℝ) (c σ : Fin n → ℝ)
    (k : ℕ) : ℝ :=
  wtHeight h0 kT γ (wtHistory h0 kT γ c σ k) c

/-- Modelled from the spec: `surface()` of the free-energy estimator.
Over a list of reported CV-space points it computes `F(cv) = -bias(cv)`
and shifts every value by the global minimum of the reported values, so
that the minimum of the returned values is zero. -/
noncomputable def surface {n : ℕ} (hills : List (Hill n))
    (pts : List (Fin n → ℝ)) : List ℝ :=
  match pts.map fun p => -biasAt hills p with
  | [] => []
  | x :: xs => (x :: xs).map fun v => v - xs.foldl min x

/-- Modelled from the spec: a stored free-energy surface, an array of
(CV-space point, free energy) pairs. -/
def mkSurface {n : ℕ} (F : (Fin n → ℝ) → ℝ) (pts : List (Fin n → ℝ)) :
    List ((Fin n → ℝ) × ℝ) := pts.map fun p => (p, F p)

open Classical in
/-- Modelled from the spec: the Boltzmann mass
`Σ_{other dims} exp(-F(cv)/kT)` accumulated by `project` over the slice
of stored surface entries whose coordinate `j` equals `x`. -/
noncomputable def sliceSum {n : ℕ} (j : Fin n) (kT x : ℝ) :
    List ((Fin n → ℝ) × ℝ) → ℝ
  | [] => 0
  | pv :: rest =>
      (if pv.1 j = x then Real.exp (-pv.2 / kT) else 0) + sliceSum j kT x rest

/-- Modelled from the spec: `project(index, kT)` evaluated at value `x`
of CV dimension `index`, i.e. `-kT * ln` of the Boltzmann mass of the
slice, integrating out all other CV dimensions. -/
noncomputable def projectAt {n : ℕ} (surf : List ((Fin n → ℝ) × ℝ))
    (j : Fin n) (kT x : ℝ) : ℝ :=
  -kT * Real.log (sliceSum j kT x surf)

/-- Modelled from the spec: the multi-dimensional CV grid as the product
of the reported values `xs` of dimension `j` with the grid `others` of
the remaining dimensions, each point completed by `Function.update`. -/
def productGrid {n : ℕ} (j : Fin n) (xs : List ℝ)
    (others : List (Fin n → ℝ)) : List (Fin n → ℝ) :=
  xs.flatMap fun x => others.map fun y => Function.update y j x

/-- Modelled from the spec: the error surfaced by the bias accumulator
when a CV observation falls outside configured hard bounds with no
boundary policy. -/
inductive DepositError where
  | invalidCVValue
deriving DecidableEq

/-- Modelled from the spec: the per-dimension configuration of the bias
accumulator, optional lower and upper hard bounds and whether a
boundary-reflection policy is configured. -/
structure BiasConfig (n : ℕ) where
  lower : Fin n → Option ℝ
  upper : Fin n → Option ℝ
  reflect : Bool

/-- Modelled from the spec: a value respects an optional lower and an
optional upper bound; an absent bound is unconstrained. -/
def boundOK (lo hi : Option ℝ) (v : ℝ) : Prop :=
  (∀ l, lo = some l → l ≤ v) ∧ (∀ u, hi = some u → v ≤ u)

/-- Modelled from the spec: a CV point respects every configured
per-dimension bound of the accumulator. -/
def inBounds {n : ℕ} (cfg : BiasConfig n) (c : Fin n → ℝ) : Prop :=
  ∀ d : Fin n, boundOK (cfg.lower d) (cfg.upper d) (c d)

open Classical in
/-- Modelled from the spec: `deposit(cv_values, height, sigma, time)`
appends a HillRecord to the append-only hill log, failing with
`InvalidCVValue` exactly when the CV values violate the configured
bounds and no boundary-reflection policy is configured. -/
noncomputable def deposit {n : ℕ} (cfg : BiasConfig n)
    (hills : List (Hill n)) (c : Fin n → ℝ) (h : ℝ) (σ : Fin n → ℝ)
    (t : ℝ) : Except DepositError (List (Hill n)) :=
  if ¬ inBounds cfg c ∧ cfg.reflect = false then .error .invalidCVValue
  else .ok (hills ++ [⟨t, c, h, σ⟩])

open Classical in
/-- Modelled from the spec: the projection with the zero-mass policy
made explicit — a grid cell with zero accumulated Boltzmann mass is an
undefined result (the cell is omitted, modelled as `none`), never the
numeric value zero. -/
noncomputable def projectAtChecked {n : ℕ}
    (surf : List ((Fin n → ℝ) × ℝ)) (j : Fin n) (kT x : ℝ) : Option ℝ :=
  if sliceSum j kT x surf = 0 then none else some (projectAt surf j kT x)

/-- Modelled from the spec: a ConfigurationSample source, a stored
trajectory frame together with its computed CV values at that frame. -/
structure Frame (n : ℕ) where
  frameIndex : ℕ
  cv : Fin n → ℝ

/-- Modelled from the spec: per-dimension bounds for the configuration
sampler, each side optionally unconstrained. -/
def CVBounds (n : ℕ) : Type := Fin n → Option ℝ × Option ℝ

/-- Modelled from the spec: a frame whose recorded CV values fall within
all per-dimension bounds. -/
def frameInBounds {n : ℕ} (b : CVBounds n) (f : Frame n) : Prop :=
  ∀ d : Fin n, boundOK (b d).1 (b d).2 (f.cv d)

open Classical in
/-- Modelled from the spec: the matching subset of the trajectory, the
frames whose recorded CV values fall within all bounds, in trajectory
order. -/
noncomputable def matchingFrames {n : ℕ} (b : CVBounds n) :
    List (Frame n) → List (Frame n)
  | [] => []
  | f :: rest =>
      if frameInBounds b f then f :: matchingFrames b rest
      else matchingFrames b rest

open Classical in
/-- Modelled from the spec: `sampleConfigurations(bounds, maxCount)`
returns up to `maxCount` frames of the matching subset together with
their CV values, or the empty result pair (modelled as `none`, the
(None, None) of the interface) when zero frames match.  The uniform
random choice without replacement is modelled by the deterministic
representative that keeps the first `maxCount` matching frames; the
random seed is outside the shallow embedding. -/
noncomputable def sampleConfigurations {n : ℕ} (traj : List (Frame n))
    (b : CVBounds n) (maxCount : ℕ) :
    Option (List (Frame n) × List (Fin n → ℝ)) :=
  if matchingFrames b traj = [] then none
  else some ((matchingFrames b traj).take maxCount,
    ((matchingFrames b traj).take maxCount).map Frame.cv)

/-- Modelled from the spec: a collective variable as a closed tagged
variant carrying its atom-index list, as used by the notebook with
`Torsion(atoms=[4, 6, 8, 14])` and `Torsion(atoms=[6, 8, 14, 16])`. -/
inductive CollectiveVariable where
  | torsion (atoms : List ℕ)
  | distance (atoms : List ℕ)
deriving DecidableEq

/-- Modelled from the spec: the metadynamics protocol, which fixes the
ordered list of collective variables at simulation start. -/
structure MetaProtocol where
  collective_variable : List CollectiveVariable

/-- Modelled from the spec: a running metadynamics process, holding the
protocol and the engine-recorded time series of values of each
collective variable. -/
structure MetaProcess where
  protocol : MetaProtocol
  trace : CollectiveVariable → List ℝ

/-- Modelled from the spec: `getCollectiveVariable(index)` in time-series
form — it looks up the `index`-th collective variable of the list passed
to the protocol constructor, 0-based, and returns its recorded values. -/
def getCollectiveVariable (p : MetaProcess) (i : ℕ) : Option (List ℝ) :=
  (p.protocol.collective_variable.get? i).map p.trace

section Theorems

/-- C1: for every finite hill history and query point, `biasAt` returns
the sum over all deposited hills `i` of
`height_i * exp(-Σ_d (p[d]-center_i[d])^2 / (2*sigma_i[d]^2))`. -/
theorem biasAt_eq_sum {n : ℕ} (hills : List (Hill n)) (p : Fin n → ℝ) :
    biasAt hills p =
      ∑ i : Fin hills.length,
        (hills.get i).height *
          Real.exp (-(∑ d : Fin n,
            (p d - (hills.get i).center d) ^ 2 /
              (2 * ((hills.get i).sigma d) ^ 2))) := by
  induction hills with
  | nil => simp [biasAt]
  | cons h rest ih =>
      rw [biasAt, ih]
      simp only [List.length_cons]
      rw [Fin.sum_univ_succ]
      simp [gaussAt, hillEnergy]

/-- Auxiliary: `biasAt` is the sum of the per-hill Gaussians. -/
theorem biasAt_eq_sum_map {n : ℕ} (hills : List (Hill n)) (p : Fin n → ℝ) :
    biasAt hills p = (hills.map fun h => gaussAt h p).sum := by
  induction hills with
  | nil => simp [biasAt]
  | cons h rest ih => simp [biasAt, ih]

/-- C2: in non-well-tempered mode (heights stored in the records, not
depending on prior bias), `biasAt` is invariant under any permutation of
the deposit order of the hill log, each record keeping its timestamp. -/
theorem biasAt_perm {n : ℕ} (H H' : List (Hill n)) (hperm : H'.Perm H)
    (p : Fin n → ℝ) : biasAt H' p = biasAt H p := by
  rw [biasAt_eq_sum_map, biasAt_eq_sum_map]
  exact (hperm.map fun h => gaussAt h p).sum_eq

/-- Witness for C2 at a concrete two-hill history with identical
timestamps, swapped. -/
theorem biasAt_perm_witness :
    List.Perm
      [Hill.mk (n := 1) 0 (fun _ => 1) 2 (fun _ => 1),
       Hill.mk (n := 1) 0 (fun _ => 0) 1 (fun _ => 1)]
      [Hill.mk (n := 1) 0 (fun _ => 0) 1 (fun _ => 1),
       Hill.mk (n := 1) 0 (fun _ => 1) 2 (fun _ => 1)] ∧
    biasAt
      [Hill.mk (n := 1) 0 (fun _ => 1) 2 (fun _ => 1),
       Hill.mk (n := 1) 0 (fun _ => 0) 1 (fun _ => 1)] (fun _ => 0) =
    biasAt
      [Hill.mk (n := 1) 0 (fun _ => 0) 1 (fun _ => 1),
       Hill.mk (n := 1) 0 (fun _ => 1) 2 (fun _ => 1)] (fun _ => 0) :=
  ⟨List.Perm.swap _ _ _, biasAt_perm _ _ (List.Perm.swap _ _ _) _⟩

/-- Auxiliary: the bias of a concatenated hill log splits as a sum. -/
theorem biasAt_append {n : ℕ} (l1 l2 : List (Hill n)) (p : Fin n → ℝ) :
    biasAt (l1 ++ l2) p = biasAt l1 p + biasAt l2 p := by
  induction l1 with
  | nil => simp [biasAt]
  | cons h rest ih => simp [biasAt, ih]; ring

/-- Auxiliary: a hill with nonnegative height contributes a nonnegative
amount to the bias. -/
theorem gaussAt_nonneg {n : ℕ} (h : Hill n) (p : Fin n → ℝ)
    (hh : 0 ≤ h.height) : 0 ≤ gaussAt h p :=
  mul_nonneg hh (Real.exp_pos _).le

/-- Auxiliary: well-tempered deposit heights are nonnegative when the
base height is. -/
theorem wtDepositHeight_nonneg {n : ℕ} (h0 kT γ : ℝ) (c σ : Fin n → ℝ)
    (k : ℕ) (h0nn : 0 ≤ h0) : 0 ≤ wtDepositHeight h0 kT γ c σ k :=
  mul_nonneg h0nn (Real.exp_pos _).le

/-- Auxiliary: each well-tempered deposit at `c` can only increase the
accumulated bias at `c`. -/
theorem wtHistory_bias_mono {n : ℕ} (h0 kT γ : ℝ) (c σ : Fin n → ℝ)
    (k : ℕ) (h0nn : 0 ≤ h0) :
    biasAt (wtHistory h0 kT γ c σ k) c ≤
      biasAt (wtHistory h0 kT γ c σ (k + 1)) c := by
  rw [wtHistory, biasAt_append]
  have hg : 0 ≤ biasAt [(⟨(k : ℝ), c,
      wtHeight h0 kT γ (wtHistory h0 kT γ c σ k) c, σ⟩ : Hill n)] c := by
    simp only [biasAt]
    have := gaussAt_nonneg (n := n)
      ⟨(k : ℝ), c, wtHeight h0 kT γ (wtHistory h0 kT γ c σ k) c, σ⟩ c
      (wtDepositHeight_nonneg h0 kT γ c σ k h0nn)
    linarith
  linarith

/-- C3: in well-tempered mode with bias factor `γ > 1`, `kT > 0` and
nonnegative base height, the height deposited at a fixed CV point is
monotonically non-increasing in the number of prior deposits at that
point, and the height of the `(k+1)`-st deposit equals
`h0 * exp(-bias_so_far(c) / (kT*(γ-1)))` under the bias accumulated from
the first `k` deposits. -/
theorem wtDepositHeight_antitone {n : ℕ} (h0 kT γ : ℝ) (c σ : Fin n → ℝ)
    (k : ℕ) (h0nn : 0 ≤ h0) (hkT : 0 < kT) (hγ : 1 < γ) :
    wtDepositHeight h0 kT γ c σ (k + 1) ≤ wtDepositHeight h0 kT γ c σ k ∧
    wtDepositHeight h0 kT γ c σ k =
      h0 * Real.exp (-biasAt (wtHistory h0 kT γ c σ k) c / (kT * (γ - 1))) := by
  refine ⟨?_, rfl⟩
  have hD : 0 < kT * (γ - 1) := mul_pos hkT (by linarith)
  have hB := wtHistory_bias_mono h0 kT γ c σ k h0nn
  unfold wtDepositHeight wtHeight
  have hdiv : -biasAt (wtHistory h0 kT γ c σ (k + 1)) c / (kT * (γ - 1)) ≤
      -biasAt (wtHistory h0 kT γ c σ k) c / (kT * (γ - 1)) :=
    div_le_div_of_nonneg_right (by linarith) hD.le
  exact mul_le_mul_of_nonneg_left (Real.exp_le_exp.mpr hdiv) h0nn

/-- Witness for C3 at concrete parameters. -/
theorem wtDepositHeight_antitone_witness :
    (0 : ℝ) ≤ 1 ∧ (0 : ℝ) < 1 ∧ (1 : ℝ) < 2 ∧
    wtDepositHeight (n := 1) 1 1 2 (fun _ => 0) (fun _ => 1) 1 ≤
      wtDepositHeight (n := 1) 1 1 2 (fun _ => 0) (fun _ => 1) 0 :=
  ⟨by norm_num, by norm_num, by norm_num,
    (wtDepositHeight_antitone 1 1 2 (fun _ => 0) (fun _ => 1) 0
      (by norm_num) (by norm_num) (by norm_num)).1⟩

/-- Auxiliary: a left fold by `min` is at most its initial value. -/
theorem foldlMin_le_init (l : List ℝ) (x : ℝ) : l.foldl min x ≤ x := by
  induction l generalizing x with
  | nil => exact le_refl x
  | cons y ys ih => exact (ih (min x y)).trans (min_le_left x y)

/-- Auxiliary: a left fold by `min` is at most every list element. -/
theorem foldlMin_le_mem (l : List ℝ) (x y : ℝ) : y ∈ l → l.foldl min x ≤ y := by
  induction l generalizing x with
  | nil => intro hy; cases hy
  | cons a as ih =>
      intro hy
      rcases List.mem_cons.mp hy with h | h
      · subst h
        exact (foldlMin_le_init as (min x y)).trans (min_le_right x y)
      · exact ih (min x a) h

/-- Auxiliary: a left fold by `min` is attained at the initial value or
at a list element. -/
theorem foldlMin_attained (l : List ℝ) (x : ℝ) :
    l.foldl min x = x ∨ l.foldl min x ∈ l := by
  induction l generalizing x with
  | nil => exact Or.inl rfl
  | cons a as ih =>
      rcases ih (min x a) with h | h
      · rcases min_choice x a with hx | ha
        · exact Or.inl (by rw [List.foldl_cons, h, hx])
        · exact Or.inr (by rw [List.foldl_cons, h, ha]; exact List.mem_cons_self a as)
      · exact Or.inr (List.mem_cons_of_mem a h)

/-- C4: `surface()` returns `-bias` shifted by a constant, every reported
free-energy value is nonnegative, and the value zero is attained, i.e.
the global minimum over the reported points is exactly zero. -/
theorem surface_spec {n : ℕ} (hills : List (Hill n))
    (pts : List (Fin n → ℝ)) (hne : pts ≠ []) :
    (∃ c : ℝ, surface hills pts = pts.map fun p => -biasAt hills p + c) ∧
    (∀ v ∈ surface hills pts, 0 ≤ v) ∧ (0 : ℝ) ∈ surface hills pts := by
  obtain ⟨q, qs, rfl⟩ := List.exists_cons_of_ne_nil hne
  have hs : surface hills (q :: qs) =
      (( -biasAt hills q) :: qs.map fun p => -biasAt hills p).map
        fun v => v - (qs.map fun p => -biasAt hills p).foldl min (-biasAt hills q) := rfl
  set f : (Fin n → ℝ) → ℝ := fun p => -biasAt hills p with hf
  set m : ℝ := (qs.map f).foldl min (f q) with hm
  have hmem : ∀ v ∈ surface hills (q :: qs),
      ∃ w, w ∈ f q :: qs.map f ∧ v = w - m := by
    intro v hv
    rw [hs] at hv
    obtain ⟨w, hw, rfl⟩ := List.mem_map.mp hv
    exact ⟨w, hw, rfl⟩
  have hmle : ∀ w ∈ f q :: qs.map f, m ≤ w := by
    intro w hw
    rcases List.mem_cons.mp hw with h | h
    · subst h; exact foldlMin_le_init _ _
    · exact foldlMin_le_mem _ _ _ h
  refine ⟨⟨-m, ?_⟩, ?_, ?_⟩
  · rw [hs]
    have : ((q :: qs).map f).map (fun v => v - m) =
        (q :: qs).map fun p => f p + -m := by
      rw [List.map_map]
      simp [Function.comp, sub_eq_add_neg]
    simpa using this
  · intro v hv
    obtain ⟨w, hw, rfl⟩ := hmem v hv
    have := hmle w hw
    linarith
  · have hin : m ∈ f q :: qs.map f := by
      rcases foldlMin_attained (qs.map f) (f q) with h | h
      · rw [hm, h]; exact List.mem_cons_self _ _
      · exact List.mem_cons_of_mem _ h
    rw [hs]
    have : m - m ∈ (((f q) :: qs.map f).map fun v => v - m) :=
      List.mem_map.mpr ⟨m, hin, rfl⟩
    simpa using this

/-- Witness for C4 at a concrete nonempty point list. -/
theorem surface_spec_witness :
    ([fun _ => (0 : ℝ)] : List (Fin 1 → ℝ)) ≠ [] ∧
    (0 : ℝ) ∈ surface ([] : List (Hill 1)) [fun _ => (0 : ℝ)] :=
  ⟨by simp, (surface_spec ([] : List (Hill 1)) [fun _ => (0 : ℝ)] (by simp)).2.2⟩

/-- Auxiliary: the slice mass of a concatenated surface splits as a sum. -/
theorem sliceSum_append {n : ℕ} (j : Fin n) (kT x : ℝ)
    (l1 l2 : List ((Fin n → ℝ) × ℝ)) :
    sliceSum j kT x (l1 ++ l2) = sliceSum j kT x l1 + sliceSum j kT x l2 := by
  induction l1 with
  | nil => simp [sliceSum]
  | cons pv rest ih => simp [sliceSum, ih]; ring

/-- Auxiliary: `mkSurface` distributes over concatenation of grids. -/
theorem mkSurface_append {n : ℕ} (F : (Fin n → ℝ) → ℝ)
    (l1 l2 : List (Fin n → ℝ)) :
    mkSurface F (l1 ++ l2) = mkSurface F l1 ++ mkSurface F l2 := by
  simp [mkSurface]

/-- Auxiliary: `productGrid` over a cons of slice values splits into the
block of that slice followed by the rest of the grid. -/
theorem productGrid_cons {n : ℕ} (j : Fin n) (a : ℝ) (rest : List ℝ)
    (others : List (Fin n → ℝ)) :
    productGrid j (a :: rest) others =
      (others.map fun y => Function.update y j a) ++ productGrid j rest others := by
  simp [productGrid]

/-- Auxiliary: the slice mass of the grid block at the queried value `x`
is the Boltzmann sum over the other-dimension grid. -/
theorem sliceSum_block_eq {n : ℕ} (j : Fin n) (kT x : ℝ)
    (others : List (Fin n → ℝ)) (F : (Fin n → ℝ) → ℝ) :
    sliceSum j kT x (mkSurface F (others.map fun y => Function.update y j x)) =
      (others.map fun y => Real.exp (-F (Function.update y j x) / kT)).sum := by
  induction others with
  | nil => simp [mkSurface, sliceSum]
  | cons y ys ih =>
      simp only [List.map_cons, mkSurface, sliceSum, List.sum_cons]
      rw [if_pos (Function.update_same j x y)]
      simp only [mkSurface] at ih
      rw [ih]

/-- Auxiliary: a grid block at a slice value different from the queried
value contributes no slice mass. -/
theorem sliceSum_block_ne {n : ℕ} (j : Fin n) (kT x a : ℝ)
    (others : List (Fin n → ℝ)) (F : (Fin n → ℝ) → ℝ) (hax : a ≠ x) :
    sliceSum j kT x (mkSurface F (others.map fun y => Function.update y j a)) = 0 := by
  induction others with
  | nil => simp [mkSurface, sliceSum]
  | cons y ys ih =>
      simp only [List.map_cons, mkSurface, sliceSum]
      rw [if_neg (by rw [Function.update_same]; exact hax)]
      simp only [mkSurface] at ih
      rw [ih]
      ring

/-- Auxiliary: if the queried value does not occur among the reported
slice values, the whole product grid carries no slice mass. -/
theorem sliceSum_grid_zero {n : ℕ} (j : Fin n) (kT x : ℝ) (xs : List ℝ)
    (others : List (Fin n → ℝ)) (F : (Fin n → ℝ) → ℝ) (hx : x ∉ xs) :
    sliceSum j kT x (mkSurface F (productGrid j xs others)) = 0 := by
  induction xs with
  | nil => simp [productGrid, mkSurface, sliceSum]
  | cons a rest ih =>
      rw [productGrid_cons, mkSurface_append, sliceSum_append]
      rw [sliceSum_block_ne j kT x a others F (fun h => hx (h ▸ List.mem_cons_self a rest))]
      rw [ih (fun h => hx (List.mem_cons_of_mem a h))]
      ring

/-- C5: over a product grid whose dimension-`j` values `xs` are distinct,
`project(j, kT)` at each reported value `x` of dimension `j` returns
`-kT * ln(Σ_{other dims} exp(-F(cv)/kT))`, the log-sum-exp
marginalisation of the stored surface onto dimension `j`. -/
theorem projectAt_productGrid {n : ℕ} (j : Fin n) (xs : List ℝ)
    (others : List (Fin n → ℝ)) (F : (Fin n → ℝ) → ℝ) (kT x : ℝ)
    (hnd : xs.Nodup) (hx : x ∈ xs) :
    projectAt (mkSurface F (productGrid j xs others)) j kT x =
      -kT * Real.log
        ((others.map fun y => Real.exp (-F (Function.update y j x) / kT)).sum) := by
  unfold projectAt
  have hmass : sliceSum j kT x (mkSurface F (productGrid j xs others)) =
      (others.map fun y => Real.exp (-F (Function.update y j x) / kT)).sum := by
    induction xs with
    | nil => cases hx
    | cons a rest ih =>
        rw [productGrid_cons, mkSurface_append, sliceSum_append]
        rcases List.mem_cons.mp hx with h | h
        · subst h
          rw [sliceSum_block_eq]
          rw [sliceSum_grid_zero j kT x rest others F (List.Nodup.not_mem hnd)]
          ring
        · have hax : a ≠ x := fun he => (List.Nodup.not_mem hnd) (he ▸ h)
          rw [sliceSum_block_ne j kT x a others F hax]
          rw [ih (List.Nodup.of_cons hnd) h]
          ring
  rw [hmass]

/-- Witness for C5 at a concrete one-dimensional grid. -/
theorem projectAt_productGrid_witness :
    ([(0 : ℝ), 1].Nodup ∧ (0 : ℝ) ∈ [(0 : ℝ), 1]) ∧
    projectAt (mkSurface (fun _ => (0 : ℝ))
        (productGrid (0 : Fin 1) [(0 : ℝ), 1] [fun _ => (0 : ℝ)])) 0 1 0 =
      -1 * Real.log
        ((([fun _ => (0 : ℝ)] : List (Fin 1 → ℝ)).map fun y =>
          Real.exp (-(fun _ => (0 : ℝ)) (Function.update y 0 0) / 1)).sum) :=
  ⟨⟨by norm_num, by norm_num⟩,
    projectAt_productGrid (0 : Fin 1) [(0 : ℝ), 1] [fun _ => (0 : ℝ)]
      (fun _ => (0 : ℝ)) 1 0 (by norm_num) (by norm_num)⟩

/-- C6: `deposit` fails with `InvalidCVValue` exactly when the CV values
violate the configured bounds and no boundary-reflection policy is
configured; in every other case it appends the new HillRecord to the
append-only hill log. -/
theorem deposit_spec {n : ℕ} (cfg : BiasConfig n) (hills : List (Hill n))
    (c : Fin n → ℝ) (h : ℝ) (σ : Fin n → ℝ) (t : ℝ) :
    (deposit cfg hills c h σ t = .error .invalidCVValue ↔
      ¬ inBounds cfg c ∧ cfg.reflect = false) ∧
    (deposit cfg hills c h σ t = .error .invalidCVValue ∨
      deposit cfg hills c h σ t = .ok (hills ++ [⟨t, c, h, σ⟩])) := by
  by_cases hc : ¬ inBounds cfg c ∧ cfg.reflect = false
  · constructor
    · rw [deposit, if_pos hc]
      exact ⟨fun _ => hc, fun _ => rfl⟩
    · exact Or.inl (by rw [deposit, if_pos hc])
  · constructor
    · rw [deposit, if_neg hc]
      exact ⟨fun he => absurd he (by simp), fun hcc => absurd hcc hc⟩
    · exact Or.inr (by rw [deposit, if_neg hc])

/-- C7: at a grid cell with zero accumulated Boltzmann mass the
projected free energy is an undefined result (the cell is omitted from
the output), and in particular it is never the numeric value zero. -/
theorem projectAtChecked_zero_mass {n : ℕ}
    (surf : List ((Fin n → ℝ) × ℝ)) (j : Fin n) (kT x : ℝ)
    (hmass : sliceSum j kT x surf = 0) :
    projectAtChecked surf j kT x = none ∧
    projectAtChecked surf j kT x ≠ some 0 := by
  rw [projectAtChecked, if_pos hmass]
  exact ⟨rfl, by simp⟩

/-- Witness for C7 at the empty surface, which carries zero mass. -/
theorem projectAtChecked_zero_mass_witness :
    sliceSum (0 : Fin 1) 1 0 ([] : List ((Fin 1 → ℝ) × ℝ)) = 0 ∧
    projectAtChecked ([] : List ((Fin 1 → ℝ) × ℝ)) (0 : Fin 1) 1 0 = none :=
  ⟨rfl, (projectAtChecked_zero_mass ([] : List ((Fin 1 → ℝ) × ℝ)) 0 1 0 rfl).1⟩

/-- Auxiliary: if no frame of the trajectory is within bounds, the
matching subset is empty. -/
theorem matchingFrames_eq_nil {n : ℕ} (b : CVBounds n)
    (traj : List (Frame n)) (hno : ∀ f ∈ traj, ¬ frameInBounds b f) :
    matchingFrames b traj = [] := by
  induction traj with
  | nil => rfl
  | cons f rest ih =>
      rw [matchingFrames, if_neg (hno f (List.mem_cons_self f rest))]
      exact ih fun g hg => hno g (List.mem_cons_of_mem f hg)

/-- Auxiliary: every frame of the matching subset is within bounds. -/
theorem mem_matchingFrames {n : ℕ} (b : CVBounds n)
    (traj : List (Frame n)) (f : Frame n) :
    f ∈ matchingFrames b traj → frameInBounds b f := by
  induction traj with
  | nil => intro hf; cases hf
  | cons g rest ih =>
      intro hf
      rw [matchingFrames] at hf
      by_cases hg : frameInBounds b g
      · rw [if_pos hg] at hf
        rcases List.mem_cons.mp hf with h | h
        · exact h ▸ hg
        · exact ih h
      · rw [if_neg hg] at hf
        exact ih hf

/-- Auxiliary: if every frame of the trajectory is within bounds, the
matching subset is the whole trajectory. -/
theorem matchingFrames_eq_self {n : ℕ} (b : CVBounds n)
    (traj : List (Frame n)) (hall : ∀ f ∈ traj, frameInBounds b f) :
    matchingFrames b traj = traj := by
  induction traj with
  | nil => rfl
  | cons f rest ih =>
      rw [matchingFrames, if_pos (hall f (List.mem_cons_self f rest))]
      rw [ih fun g hg => hall g (List.mem_cons_of_mem f hg)]

/-- C8: when the bounds match zero trajectory frames,
`sampleConfigurations` returns the empty result pair (the (None, None)
of the interface, modelled as `none`) rather than failing — the
function is total. -/
theorem sampleConfigurations_empty {n : ℕ} (traj : List (Frame n))
    (b : CVBounds n) (maxCount : ℕ)
    (hno : ∀ f ∈ traj, ¬ frameInBounds b f) :
    sampleConfigurations traj b maxCount = none := by
  rw [sampleConfigurations, if_pos (matchingFrames_eq_nil b traj hno)]

/-- Witness for C8: a one-frame trajectory whose CV value violates a
lower bound. -/
theorem sampleConfigurations_empty_witness :
    sampleConfigurations [Frame.mk (n := 1) 0 (fun _ => 0)]
      (fun _ => (some 1, none)) 5 = none :=
  sampleConfigurations_empty _ _ _ (by
    intro f hf
    simp only [List.mem_singleton] at hf
    subst hf
    intro hin
    have h1 := (hin 0).1 1 rfl
    norm_num at h1)

/-- C9: `sampleConfigurations` returns at most `maxCount` frames, each
within all per-dimension bounds, paired with exactly their CV values;
and with fully unconstrained bounds and `maxCount` at least the number
of frames it returns exactly the full frame set. -/
theorem sampleConfigurations_spec {n : ℕ} (traj : List (Frame n))
    (b : CVBounds n) (maxCount : ℕ) :
    (∀ frames cvs,
      sampleConfigurations traj b maxCount = some (frames, cvs) →
        frames.length ≤ maxCount ∧ (∀ f ∈ frames, frameInBounds b f) ∧
        cvs = frames.map Frame.cv) ∧
    ((∀ d, b d = (none, none)) → traj ≠ [] → traj.length ≤ maxCount →
      sampleConfigurations traj b maxCount =
        some (traj, traj.map Frame.cv)) := by
  constructor
  · intro frames cvs hres
    rw [sampleConfigurations] at hres
    by_cases hm : matchingFrames b traj = []
    · rw [if_pos hm] at hres; cases hres
    · rw [if_neg hm] at hres
      have h1 : frames = (matchingFrames b traj).take maxCount :=
        (congrArg Prod.fst (Option.some.inj hres)).symm
      have h2 : cvs = ((matchingFrames b traj).take maxCount).map Frame.cv :=
        (congrArg Prod.snd (Option.some.inj hres)).symm
      refine ⟨?_, ?_, by rw [h2, h1]⟩
      · rw [h1, List.length_take]
        exact min_le_left _ _
      · intro f hf
        rw [h1] at hf
        exact mem_matchingFrames b traj f (List.take_subset _ _ hf)
  · intro hb hne hlen
    have hall : ∀ f ∈ traj, frameInBounds b f := by
      intro f _ d
      rw [hb d]
      exact ⟨fun l hl => by simp at hl, fun u hu => by simp at hu⟩
    rw [sampleConfigurations, matchingFrames_eq_self b traj hall,
      if_neg hne, List.take_of_length_le hlen]

/-- Witness for C9 on a one-frame trajectory with unconstrained
bounds. -/
theorem sampleConfigurations_spec_witness :
    sampleConfigurations [Frame.mk (n := 1) 0 (fun _ => 0)]
      (fun _ => (none, none)) 1 =
      some ([Frame.mk (n := 1) 0 (fun _ => 0)],
        [fun _ => (0 : ℝ)]) :=
  (sampleConfigurations_spec [Frame.mk (n := 1) 0 (fun _ => 0)]
      (fun _ => (none, none)) 1).2
    (fun _ => rfl) (by simp) (by simp)

/-- C10: for every index below the number of configured collective
variables, `getCollectiveVariable(i)` returns the recorded values of the
`i`-th collective variable of the list passed to the protocol
constructor, 0-based in list order. -/
theorem getCollectiveVariable_spec (p : MetaProcess) (i : ℕ)
    (hi : i < p.protocol.collective_variable.length) :
    getCollectiveVariable p i =
      some (p.trace (p.protocol.collective_variable.get ⟨i, hi⟩)) := by
  rw [getCollectiveVariable, List.get?_eq_get hi, Option.map_some']

/-- Witness for C10: with `collective_variable = [phi, psi]` as in the
notebook, index 0 yields the phi torsion values and index 1 yields the
psi torsion values. -/
theorem getCollectiveVariable_spec_witness :
    getCollectiveVariable
      ⟨⟨[CollectiveVariable.torsion [4, 6, 8, 14],
         CollectiveVariable.torsion [6, 8, 14, 16]]⟩,
        fun cv => match cv with
          | CollectiveVariable.torsion a => if a = [4, 6, 8, 14] then [1] else [2]
          | CollectiveVariable.distance _ => []⟩ 0 =
      some [1] ∧
    getCollectiveVariable
      ⟨⟨[CollectiveVariable.torsion [4, 6, 8, 14],
         CollectiveVariable.torsion [6, 8, 14, 16]]⟩,
        fun cv => match cv with
          | CollectiveVariable.torsion a => if a = [4, 6, 8, 14] then [1] else [2]
          | CollectiveVariable.distance _ => []⟩ 1 =
      some [2] := by
  constructor
  · have h := getCollectiveVariable_spec
      ⟨⟨[CollectiveVariable.torsion [4, 6, 8, 14],
         CollectiveVariable.torsion [6, 8, 14, 16]]⟩,
        fun cv => match cv with
          | CollectiveVariable.torsion a => if a = [4, 6, 8, 14] then [1] else [2]
          | CollectiveVariable.distance _ => []⟩ 0 (by simp)
    simpa using h
  · have h := getCollectiveVariable_spec
      ⟨⟨[CollectiveVariable.torsion [4, 6, 8, 14],
         CollectiveVariable.torsion [6, 8, 14, 16]]⟩,
        fun cv => match cv with
          | CollectiveVariable.torsion a => if a = [4, 6, 8, 14] then [1] else [2]
          | CollectiveVariable.distance _ => []⟩ 1 (by simp)
    simpa using h

end Theorems

end MetaDyn
